import Mathlib

/-!
Verification development for the caf.space zone-translation engine.

The definitions below are shallow embeddings of the Python functions in
src/caf/space/zone_correspondence.py, src/caf/space/weighted_funcs.py and
src/caf/space/zone_translation.py.  Factor tables (pandas DataFrames) are
embedded as lists of rows; rational numbers stand for the float columns, so
the algebraic identities of the correction code are exact.  Geometry-library
calls (geopandas overlay, sjoin, buffer) are embedded as oracle parameters;
the arithmetic performed on their outputs is translated line by line.
-/

/-- A row of a single-direction factor table: `from`-zone id, `to`-zone id and
the factor column (for example `zone_1_to_zone_2`).  Embeds one row of the
DataFrame passed to `rounding_correction`. -/
structure FRow where
  a : Int
  b : Int
  f : ℚ
deriving DecidableEq

/-- Which id column a groupby uses: the `from` column of `rounding_correction`
is either the first or the second id column, depending on the direction. -/
inductive GKey where
  | byA : GKey
  | byB : GKey
deriving DecidableEq

/-- Project the grouping key out of a row. -/
def keyOf : GKey → FRow → Int
  | .byA, r => r.a
  | .byB, r => r.b

/-- The rows of the group with key `k` (pandas `groupby(from_col)` group). -/
def groupRows (t : List FRow) (key : GKey) (k : Int) : List FRow :=
  t.filter (fun r => keyOf key r = k)

/-- Size of the group with key `k` (`zone_corr.groupby(from_col).size()`). -/
def groupCount (t : List FRow) (key : GKey) (k : Int) : Nat :=
  (groupRows t key k).length

/-- Sum of the factor column over the group with key `k`
(`frame[factor_filter].groupby(from_col).sum()` in `calculate_differences`). -/
def groupSum (t : List FRow) (key : GKey) (k : Int) : ℚ :=
  ((groupRows t key k).map FRow.f).sum

/-- One row after `rounding_correction` (zone_correspondence.py lines 227-258):
singleton groups get factor 1 (`zone_corr.loc[counts[counts == 1].index,
factor_col] = 1`); larger groups are multiplied by the correction
`1 + diff / total` where `diff = 1 - total` and `total` is the group sum of the
factor column. -/
def correctRow (t : List FRow) (key : GKey) (r : FRow) : FRow :=
  if groupCount t key (keyOf key r) = 1 then
    ⟨r.a, r.b, 1⟩
  else
    ⟨r.a, r.b,
      r.f * (1 + (1 - groupSum t key (keyOf key r)) / groupSum t key (keyOf key r))⟩

/-- The whole factor table after the value-adjustment part of
`rounding_correction`. -/
def correctedRows (t : List FRow) (key : GKey) : List FRow :=
  t.map (correctRow t key)

/-- Round-half-even of a rational to an integer, the rounding used by
`Series.round` (numpy banker's rounding). -/
def roundHE (x : ℚ) : ℤ :=
  let n := ⌊x⌋
  if x < (n : ℚ) + 1/2 then n
  else if (n : ℚ) + 1/2 < x then n + 1
  else if n % 2 = 0 then n else n + 1

/-- `x.round(3)`: round to three decimal places. -/
def round3 (x : ℚ) : ℚ := (roundHE (x * 1000) : ℚ) / 1000

/-- Number of strictly negative corrected factors
(`(zone_corr[factor_col] < 0).sum()`). -/
def negCount (v : List FRow) : Nat :=
  (v.filter (fun r => r.f < 0)).length

/-- Number of corrected factors that round (to 3 dp) strictly above 1
(`(zone_corr[factor_col].round(3) > 1).sum()`). -/
def tooBigCount (v : List FRow) : Nat :=
  (v.filter (fun r => 1 < round3 r.f)).length

/-- The warning emitted when factors exceed 1 after correction
(`warnings.warn` branch of `rounding_correction`). -/
def warnList (v : List FRow) : List String :=
  if 0 < tooBigCount v then
    [toString (tooBigCount v) ++ " correspondence factors greater than 1"]
  else []

/-- `rounding_correction` (zone_correspondence.py lines 184-285, zone branch):
adjust the factor column per `from`-zone group, then raise `ValueError` when
any corrected factor is strictly negative, otherwise return the table together
with the warnings emitted. -/
def rounding_correction (t : List FRow) (key : GKey) :
    Except String (List FRow × List String) :=
  if 0 < negCount (correctedRows t key) then
    .error (toString (negCount (correctedRows t key))
      ++ " negative correspondence factors")
  else
    .ok (correctedRows t key, warnList (correctedRows t key))

/-- A row of the two-direction correspondence table produced by
`spatial_zone_correspondence` / `final_weighted`: the two zone ids and the two
directional factors. -/
structure CRow where
  a : Int
  b : Int
  ab : ℚ
  ba : ℚ
deriving DecidableEq

/-- The three-column view `[zone_1_id, zone_2_id, zone_1_to_zone_2]` that
`round_zone_correspondence` passes to the first `rounding_correction` call. -/
def dirA (t : List CRow) : List FRow :=
  t.map (fun r => ⟨r.a, r.b, r.ab⟩)

/-- The three-column view `[zone_1_id, zone_2_id, zone_2_to_zone_1]` passed to
the second `rounding_correction` call (whose `from` column is the second id). -/
def dirB (t : List CRow) : List FRow :=
  t.map (fun r => ⟨r.a, r.b, r.ba⟩)

/-- The joined value table of `round_zone_correspondence`: the corrected
direction-1 table joined with the corrected direction-2 table on the id pair.
The source joins on the `(zone_1_id, zone_2_id)` index; both corrections keep
row order and ids, so the join is positional. -/
def roundedBoth (t : List CRow) : List CRow :=
  List.zipWith (fun r1 r2 => ⟨r1.a, r1.b, r1.f, r2.f⟩)
    (correctedRows (dirA t) .byA) (correctedRows (dirB t) .byB)

/-- `round_zone_correspondence` (zone_correspondence.py lines 288-353, zone
branch): run `rounding_correction` on direction 1 grouped by the first id,
then on direction 2 grouped by the second id, and join the results.  A
`ValueError` in either call aborts. -/
def round_zone_correspondence (t : List CRow) :
    Except String (List CRow × List String) :=
  match rounding_correction (dirA t) .byA, rounding_correction (dirB t) .byB with
  | .ok (_, w1), .ok (_, w2) => .ok (roundedBoth t, w1 ++ w2)
  | .error e, _ => .error e
  | .ok _, .error e => .error e

/-- The sliver test of `find_slithers` (zone_correspondence.py lines 172-181,
zone branch): a row is a sliver when both directional factors are strictly
below `1 - tolerance`. -/
def sliver (r : CRow) (tolerance : ℚ) : Bool :=
  decide (r.ab < 1 - tolerance) && decide (r.ba < 1 - tolerance)

/-- `find_slithers`: split the correspondence into the sliver rows and the
kept rows (`slithers`, `no_slithers`). -/
def find_slithers (t : List CRow) (tolerance : ℚ) : List CRow × List CRow :=
  (t.filter (fun r => sliver r tolerance), t.filter (fun r => ! sliver r tolerance))

/-- Sum of `a_to_b` over the rows of the table whose first id is `a`. -/
def sumAB (v : List CRow) (a : Int) : ℚ :=
  ((v.filter (fun r => r.a = a)).map CRow.ab).sum

/-- Sum of `b_to_a` over the rows of the table whose second id is `b`. -/
def sumBA (v : List CRow) (b : Int) : ℚ :=
  ((v.filter (fun r => r.b = b)).map CRow.ba).sum

/-! ### Structural lemmas about the rounding correction -/

theorem keyOf_correctRow (t : List FRow) (key : GKey) (r : FRow) :
    keyOf key (correctRow t key r) = keyOf key r := by
  cases key <;> unfold correctRow <;> split <;> rfl

theorem filter_map_keyfix (l : List FRow) (g : FRow → FRow) (p : FRow → Bool)
    (h : ∀ r, p (g r) = p r) : (l.map g).filter p = (l.filter p).map g := by
  induction l with
  | nil => rfl
  | cons hd tl ih =>
    simp only [List.map_cons, List.filter_cons, h hd]
    cases hp : p hd <;> simp [hp, ih]

theorem groupRows_corrected (t : List FRow) (key : GKey) (k : Int) :
    groupRows (correctedRows t key) key k
      = (groupRows t key k).map (correctRow t key) := by
  unfold groupRows correctedRows
  apply filter_map_keyfix
  intro r
  simp [keyOf_correctRow]

theorem groupCount_corrected (t : List FRow) (key : GKey) (k : Int) :
    groupCount (correctedRows t key) key k = groupCount t key k := by
  unfold groupCount
  rw [groupRows_corrected, List.length_map]

theorem mem_groupRows {t : List FRow} {key : GKey} {k : Int} {r : FRow} :
    r ∈ groupRows t key k ↔ r ∈ t ∧ keyOf key r = k := by
  simp [groupRows]

theorem groupSum_pos_of_pos {t : List FRow} {key : GKey} {k : Int}
    (hpos : ∀ r ∈ t, 0 < r.f) (hne : groupRows t key k ≠ []) :
    0 < groupSum t key k := by
  unfold groupSum
  apply List.sum_pos
  · intro x hx
    rcases List.mem_map.1 hx with ⟨r, hr, rfl⟩
    exact hpos r (mem_groupRows.1 hr).1
  · simp only [ne_eq, List.map_eq_nil_iff]
    exact hne

theorem groupSum_corrected (t : List FRow) (key : GKey) (k : Int)
    (hne : groupRows t key k ≠ [])
    (hC : 1 < groupCount t key k → groupSum t key k ≠ 0) :
    groupSum (correctedRows t key) key k = 1 := by
  have hrw : groupSum (correctedRows t key) key k
      = (((groupRows t key k).map (correctRow t key)).map FRow.f).sum := by
    unfold groupSum
    rw [groupRows_corrected]
  rw [hrw]
  by_cases h1 : groupCount t key k = 1
  · rcases List.length_eq_one.1 h1 with ⟨r, hr⟩
    have hrk : keyOf key r = k := by
      have hmem : r ∈ groupRows t key k := by
        rw [hr]; exact List.mem_singleton_self r
      exact (mem_groupRows.1 hmem).2
    rw [hr]
    simp [correctRow, hrk, h1]
  · have hpos0 : 0 < groupCount t key k := by
      unfold groupCount
      exact List.length_pos.2 hne
    have hcnt : 1 < groupCount t key k := by omega
    have hsum : groupSum t key k ≠ 0 := hC hcnt
    have hmap : (groupRows t key k).map (correctRow t key)
        = (groupRows t key k).map (fun r =>
            (⟨r.a, r.b, r.f * (1 + (1 - groupSum t key k) / groupSum t key k)⟩ : FRow)) := by
      apply List.map_congr_left
      intro r hr
      have hrk : keyOf key r = k := (mem_groupRows.1 hr).2
      unfold correctRow
      rw [hrk, if_neg h1]
    rw [hmap, List.map_map]
    have hcomp : (FRow.f ∘ fun r =>
        (⟨r.a, r.b, r.f * (1 + (1 - groupSum t key k) / groupSum t key k)⟩ : FRow))
        = fun r => FRow.f r * (1 + (1 - groupSum t key k) / groupSum t key k) := rfl
    rw [hcomp, List.sum_map_mul_right]
    have hgs : ((groupRows t key k).map FRow.f).sum = groupSum t key k := rfl
    rw [hgs]
    field_simp

theorem correctRow_a (t : List FRow) (key : GKey) (r : FRow) :
    (correctRow t key r).a = r.a := by
  unfold correctRow; split <;> rfl

theorem correctRow_b (t : List FRow) (key : GKey) (r : FRow) :
    (correctRow t key r).b = r.b := by
  unfold correctRow; split <;> rfl

theorem correctRow_eta (t : List FRow) (key : GKey) (r : FRow) :
    correctRow t key r = ⟨r.a, r.b, (correctRow t key r).f⟩ := by
  unfold correctRow; split <;> rfl

theorem zipWith_map_same (f : FRow → FRow → CRow) (u w : CRow → FRow)
    (l : List CRow) :
    List.zipWith f (l.map u) (l.map w) = l.map (fun x => f (u x) (w x)) := by
  induction l with
  | nil => rfl
  | cons hd tl ih => simp [ih]

theorem corrA_eq_map (t : List CRow) :
    correctedRows (dirA t) .byA
      = t.map (fun r => correctRow (dirA t) .byA ⟨r.a, r.b, r.ab⟩) := by
  unfold correctedRows dirA
  rw [List.map_map]
  rfl

theorem corrB_eq_map (t : List CRow) :
    correctedRows (dirB t) .byB
      = t.map (fun r => correctRow (dirB t) .byB ⟨r.a, r.b, r.ba⟩) := by
  unfold correctedRows dirB
  rw [List.map_map]
  rfl

theorem roundedBoth_eq (t : List CRow) :
    roundedBoth t = t.map (fun r =>
      ⟨r.a, r.b, (correctRow (dirA t) .byA ⟨r.a, r.b, r.ab⟩).f,
                 (correctRow (dirB t) .byB ⟨r.a, r.b, r.ba⟩).f⟩) := by
  unfold roundedBoth
  rw [corrA_eq_map, corrB_eq_map, zipWith_map_same]
  apply List.map_congr_left
  intro r _
  rw [correctRow_a, correctRow_b]

theorem dirA_roundedBoth (t : List CRow) :
    dirA (roundedBoth t) = correctedRows (dirA t) .byA := by
  rw [roundedBoth_eq, corrA_eq_map]
  unfold dirA
  rw [List.map_map]
  apply List.map_congr_left
  intro r _
  conv_rhs => rw [correctRow_eta]
  rfl

theorem dirB_roundedBoth (t : List CRow) :
    dirB (roundedBoth t) = correctedRows (dirB t) .byB := by
  rw [roundedBoth_eq, corrB_eq_map]
  unfold dirB
  rw [List.map_map]
  apply List.map_congr_left
  intro r _
  conv_rhs => rw [correctRow_eta]
  rfl

theorem roundedBoth_map_a (t : List CRow) :
    (roundedBoth t).map CRow.a = t.map CRow.a := by
  rw [roundedBoth_eq, List.map_map]
  rfl

theorem roundedBoth_map_b (t : List CRow) :
    (roundedBoth t).map CRow.b = t.map CRow.b := by
  rw [roundedBoth_eq, List.map_map]
  rfl

theorem sumAB_eq (v : List CRow) (a : Int) :
    sumAB v a = groupSum (dirA v) .byA a := by
  unfold sumAB groupSum groupRows dirA
  induction v with
  | nil => rfl
  | cons hd tl ih =>
    simp only [List.map_cons, List.filter_cons, keyOf]
    by_cases h : hd.a = a
    · simp [h, ih, keyOf]
    · simp [h, ih, keyOf]

theorem sumBA_eq (v : List CRow) (b : Int) :
    sumBA v b = groupSum (dirB v) .byB b := by
  unfold sumBA groupSum groupRows dirB
  induction v with
  | nil => rfl
  | cons hd tl ih =>
    simp only [List.map_cons, List.filter_cons, keyOf]
    by_cases h : hd.b = b
    · simp [h, ih, keyOf]
    · simp [h, ih, keyOf]

theorem rzc_ok (t : List CRow) (v : List CRow) (w : List String)
    (hok : round_zone_correspondence t = .ok (v, w)) : v = roundedBoth t := by
  unfold round_zone_correspondence at hok
  cases h1 : rounding_correction (dirA t) .byA with
  | error e => rw [h1] at hok; exact Except.noConfusion hok
  | ok p1 =>
    cases h2 : rounding_correction (dirB t) .byB with
    | error e => rw [h1, h2] at hok; exact Except.noConfusion hok
    | ok p2 =>
      obtain ⟨v1, w1⟩ := p1
      obtain ⟨v2, w2⟩ := p2
      rw [h1, h2] at hok
      simp only [Except.ok.injEq, Prod.mk.injEq] at hok
      exact hok.1.symm

theorem negCount_pos_iff (v : List FRow) :
    0 < negCount v ↔ ∃ r ∈ v, r.f < 0 := by
  unfold negCount
  rw [List.length_pos]
  constructor
  · intro h
    obtain ⟨r, hr⟩ := List.exists_mem_of_ne_nil _ h
    have hm := List.mem_filter.1 hr
    exact ⟨r, hm.1, by simpa using hm.2⟩
  · rintro ⟨r, hr, hneg⟩
    exact List.ne_nil_of_mem (List.mem_filter.2 ⟨hr, by simpa using hneg⟩)

theorem rc_ok_parts (t : List FRow) (key : GKey) (v : List FRow) (w : List String)
    (hok : rounding_correction t key = .ok (v, w)) :
    v = correctedRows t key ∧ w = warnList (correctedRows t key) ∧
      ¬ 0 < negCount (correctedRows t key) := by
  unfold rounding_correction at hok
  by_cases h : 0 < negCount (correctedRows t key)
  · rw [if_pos h] at hok
    exact Except.noConfusion hok
  · rw [if_neg h] at hok
    simp only [Except.ok.injEq, Prod.mk.injEq] at hok
    exact ⟨hok.1.symm, hok.2.symm, h⟩

theorem correctedRows_idem (t : List FRow) (key : GKey)
    (hC : ∀ r ∈ t, 1 < groupCount t key (keyOf key r) →
      groupSum t key (keyOf key r) ≠ 0) :
    correctedRows (correctedRows t key) key = correctedRows t key := by
  have hfix : ∀ s ∈ correctedRows t key,
      correctRow (correctedRows t key) key s = s := by
    intro s hs
    have hsgrp : s ∈ groupRows (correctedRows t key) key (keyOf key s) :=
      mem_groupRows.2 ⟨hs, rfl⟩
    have hne' : groupRows (correctedRows t key) key (keyOf key s) ≠ [] :=
      List.ne_nil_of_mem hsgrp
    have hcnt := groupCount_corrected t key (keyOf key s)
    have hneO : groupRows t key (keyOf key s) ≠ [] := by
      intro hnil
      have h0 : groupCount (correctedRows t key) key (keyOf key s) = 0 := by
        rw [hcnt]
        unfold groupCount
        rw [hnil]
        rfl
      unfold groupCount at h0
      exact hne' (List.length_eq_zero.1 h0)
    by_cases h1 : groupCount t key (keyOf key s) = 1
    · rcases List.length_eq_one.1 h1 with ⟨r, hr⟩
      have hsgrp' : s ∈ (groupRows t key (keyOf key s)).map (correctRow t key) := by
        rw [← groupRows_corrected]
        exact hsgrp
      rw [hr] at hsgrp'
      simp only [List.map_cons, List.map_nil, List.mem_singleton] at hsgrp'
      have hrk : keyOf key r = keyOf key s := by
        have hmem : r ∈ groupRows t key (keyOf key s) := by
          rw [hr]; exact List.mem_singleton_self r
        exact (mem_groupRows.1 hmem).2
      have hs1 : s = ⟨r.a, r.b, 1⟩ := by
        rw [hsgrp']
        unfold correctRow
        rw [hrk, if_pos h1]
      unfold correctRow
      rw [if_pos (by rw [hcnt]; exact h1)]
      rw [hs1]
    · have h0 : 0 < groupCount t key (keyOf key s) := by
        unfold groupCount
        exact List.length_pos.2 hneO
      have hgt : 1 < groupCount t key (keyOf key s) := by omega
      obtain ⟨r0, hr0⟩ := List.exists_mem_of_ne_nil _ hneO
      have hr0t : r0 ∈ t := (mem_groupRows.1 hr0).1
      have hr0k : keyOf key r0 = keyOf key s := (mem_groupRows.1 hr0).2
      have hsum0 : groupSum t key (keyOf key s) ≠ 0 := by
        have h := hC r0 hr0t
        rw [hr0k] at h
        exact h hgt
      have hsum1 : groupSum (correctedRows t key) key (keyOf key s) = 1 :=
        groupSum_corrected t key (keyOf key s) hneO (fun _ => hsum0)
      unfold correctRow
      rw [if_neg (by rw [hcnt]; omega), hsum1]
      norm_num
  calc correctedRows (correctedRows t key) key
      = (correctedRows t key).map (correctRow (correctedRows t key) key) := rfl
    _ = (correctedRows t key).map id :=
        List.map_congr_left (by intro s hs; simpa using hfix s hs)
    _ = correctedRows t key := List.map_id _

/-! ### Claim theorems: rounding correction and sliver filter -/

/-- C1: after the rounding correction, for every first-layer id appearing in
the factor table the `a_to_b` factors of that id sum to 1 up to `10 ^ (-6)`,
and symmetrically for every second-layer id and `b_to_a`.  (In the exact
arithmetic of the embedding the sums equal 1, so the bound holds with
slack.) -/
theorem c1_conservation_after_rounding (t v : List CRow) (w : List String)
    (hok : round_zone_correspondence t = .ok (v, w))
    (hpos : ∀ r ∈ t, 0 < r.ab ∧ 0 < r.ba) :
    (∀ a ∈ v.map CRow.a, |sumAB v a - 1| ≤ 1/1000000) ∧
    (∀ b ∈ v.map CRow.b, |sumBA v b - 1| ≤ 1/1000000) := by
  have hv : v = roundedBoth t := rzc_ok t v w hok
  constructor
  · intro a ha
    rw [hv, roundedBoth_map_a] at ha
    obtain ⟨r, hr, hra⟩ := List.mem_map.1 ha
    have hmem : (⟨r.a, r.b, r.ab⟩ : FRow) ∈ dirA t := List.mem_map_of_mem _ hr
    have hgrp : (⟨r.a, r.b, r.ab⟩ : FRow) ∈ groupRows (dirA t) .byA a :=
      mem_groupRows.2 ⟨hmem, by simpa [keyOf] using hra⟩
    have hne : groupRows (dirA t) .byA a ≠ [] := List.ne_nil_of_mem hgrp
    have hposA : ∀ s ∈ dirA t, 0 < s.f := by
      intro s hs
      obtain ⟨r', hr', rfl⟩ := List.mem_map.1 hs
      exact (hpos r' hr').1
    have hsum1 : groupSum (correctedRows (dirA t) .byA) .byA a = 1 :=
      groupSum_corrected _ _ _ hne
        (fun _ => ne_of_gt (groupSum_pos_of_pos hposA hne))
    rw [hv, sumAB_eq, dirA_roundedBoth, hsum1]
    norm_num
  · intro b hb
    rw [hv, roundedBoth_map_b] at hb
    obtain ⟨r, hr, hrb⟩ := List.mem_map.1 hb
    have hmem : (⟨r.a, r.b, r.ba⟩ : FRow) ∈ dirB t := List.mem_map_of_mem _ hr
    have hgrp : (⟨r.a, r.b, r.ba⟩ : FRow) ∈ groupRows (dirB t) .byB b :=
      mem_groupRows.2 ⟨hmem, by simpa [keyOf] using hrb⟩
    have hne : groupRows (dirB t) .byB b ≠ [] := List.ne_nil_of_mem hgrp
    have hposB : ∀ s ∈ dirB t, 0 < s.f := by
      intro s hs
      obtain ⟨r', hr', rfl⟩ := List.mem_map.1 hs
      exact (hpos r' hr').2
    have hsum1 : groupSum (correctedRows (dirB t) .byB) .byB b = 1 :=
      groupSum_corrected _ _ _ hne
        (fun _ => ne_of_gt (groupSum_pos_of_pos hposB hne))
    rw [hv, sumBA_eq, dirB_roundedBoth, hsum1]
    norm_num

/-- A small concrete factor table used to instantiate the rounding claims. -/
def c1ex : List CRow := [⟨1, 10, 1/2, 1/2⟩, ⟨1, 11, 1/4, 1/2⟩, ⟨2, 10, 1, 1/2⟩]

set_option maxRecDepth 8000 in
/-- Witness for C1 at the concrete table `c1ex`. -/
theorem c1_witness :
    |sumAB (roundedBoth c1ex) 1 - 1| ≤ 1/1000000 ∧
    |sumBA (roundedBoth c1ex) 10 - 1| ≤ 1/1000000 := by
  have h := c1_conservation_after_rounding c1ex (roundedBoth c1ex) []
    (by norm_num [round_zone_correspondence, rounding_correction, negCount,
      warnList, tooBigCount, round3, roundHE, roundedBoth,
      correctedRows, correctRow, groupCount, groupRows, groupSum, keyOf,
      dirA, dirB, c1ex])
    (by norm_num [c1ex])
  refine ⟨h.1 1 ?_, h.2 10 ?_⟩
  · norm_num [roundedBoth, correctedRows, correctRow, groupCount, groupRows,
      groupSum, keyOf, dirA, dirB, c1ex]
  · norm_num [roundedBoth, correctedRows, correctRow, groupCount, groupRows,
      groupSum, keyOf, dirA, dirB, c1ex]

/-- C2: a source zone with exactly one row gets factor 1; a source zone with
more than one row and nonzero pre-correction group sum `C` has every factor in
its group multiplied by exactly `1 / C`; and `round_zone_correspondence`
applies the procedure to the two directions independently (first direction
grouped by the first id, second direction grouped by the second id) and joins
the results. -/
theorem c2_group_scaling :
    (∀ (t : List FRow) (key : GKey) (r : FRow),
      (groupCount t key (keyOf key r) = 1 → correctRow t key r = ⟨r.a, r.b, 1⟩) ∧
      (1 < groupCount t key (keyOf key r) → groupSum t key (keyOf key r) ≠ 0 →
        correctRow t key r
          = ⟨r.a, r.b, r.f * (1 / groupSum t key (keyOf key r))⟩)) ∧
    (∀ (t v : List CRow) (w : List String),
      round_zone_correspondence t = .ok (v, w) → v = roundedBoth t) := by
  constructor
  · intro t key r
    constructor
    · intro h1
      unfold correctRow
      rw [if_pos h1]
    · intro hgt hne
      unfold correctRow
      rw [if_neg (by omega)]
      have h : (1 : ℚ) + (1 - groupSum t key (keyOf key r)) / groupSum t key (keyOf key r)
          = 1 / groupSum t key (keyOf key r) := by
        field_simp
      rw [h]
  · exact rzc_ok

/-- A factor table with one two-row group (sum 1/2) and one singleton group. -/
def c2ex : List FRow := [⟨1, 10, 1/4⟩, ⟨1, 11, 1/4⟩, ⟨2, 12, 1/3⟩]

/-- Witness for C2 at `c2ex`: the two-row group is scaled by 1/(1/2) = 2 and
the singleton is set to 1. -/
theorem c2_witness :
    correctRow c2ex .byA ⟨1, 10, 1/4⟩ = ⟨1, 10, 1/2⟩ ∧
    correctRow c2ex .byA ⟨2, 12, 1/3⟩ = ⟨2, 12, 1⟩ := by
  have h1 := (c2_group_scaling.1 c2ex .byA ⟨1, 10, 1/4⟩).2
    (by norm_num [groupCount, groupRows, keyOf, c2ex])
    (by norm_num [groupSum, groupRows, keyOf, c2ex])
  have h2 := (c2_group_scaling.1 c2ex .byA ⟨2, 12, 1/3⟩).1
    (by norm_num [groupCount, groupRows, keyOf, c2ex])
  constructor
  · rw [h1]
    norm_num [groupSum, groupRows, keyOf, c2ex]
  · rw [h2]

/-- C4: `find_slithers` drops a row exactly when both directional factors are
strictly below `1 - tolerance`; a row with at least one factor at or above
`1 - tolerance` is kept (unchanged, since the function only filters). -/
theorem c4_sliver_joint_filter (t : List CRow) (tol : ℚ) (r : CRow) :
    (r ∈ (find_slithers t tol).1 ↔ r ∈ t ∧ (r.ab < 1 - tol ∧ r.ba < 1 - tol)) ∧
    (r ∈ (find_slithers t tol).2 ↔ r ∈ t ∧ (1 - tol ≤ r.ab ∨ 1 - tol ≤ r.ba)) := by
  unfold find_slithers sliver
  constructor
  · simp [List.mem_filter]
  · simp only [List.mem_filter, Bool.not_eq_true', Bool.and_eq_false_iff,
      decide_eq_false_iff_not, not_lt]

/-- C7: `rounding_correction` raises `ValueError` exactly when some corrected
factor is strictly negative; with no negative factor it returns the corrected
table, at most attaching the factor-greater-than-1 warning. -/
theorem c7_negative_fatal (t : List FRow) (key : GKey) :
    ((∃ e, rounding_correction t key = .error e)
        ↔ ∃ r ∈ correctedRows t key, r.f < 0) ∧
    ((∀ r ∈ correctedRows t key, 0 ≤ r.f) →
      rounding_correction t key
        = .ok (correctedRows t key, warnList (correctedRows t key))) := by
  constructor
  · constructor
    · rintro ⟨e, he⟩
      unfold rounding_correction at he
      by_cases h : 0 < negCount (correctedRows t key)
      · exact (negCount_pos_iff _).1 h
      · rw [if_neg h] at he
        exact Except.noConfusion he
    · intro hex
      unfold rounding_correction
      rw [if_pos ((negCount_pos_iff _).2 hex)]
      exact ⟨_, rfl⟩
  · intro hnn
    have h : ¬ 0 < negCount (correctedRows t key) := by
      intro h
      obtain ⟨r, hr, hlt⟩ := (negCount_pos_iff _).1 h
      exact absurd (hnn r hr) (not_le.2 hlt)
    unfold rounding_correction
    rw [if_neg h]

/-- A table whose two-row group sums to 1 but contains a negative factor that
survives correction. -/
def c7exNeg : List FRow := [⟨1, 10, 2⟩, ⟨1, 11, -1⟩]

/-- A benign singleton table. -/
def c7exOk : List FRow := [⟨1, 10, 1/2⟩]

/-- Witness for C7: the table with a surviving negative factor errors, the
benign table completes. -/
theorem c7_witness :
    (∃ e, rounding_correction c7exNeg .byA = .error e) ∧
    rounding_correction c7exOk .byA
      = .ok (correctedRows c7exOk .byA, warnList (correctedRows c7exOk .byA)) := by
  constructor
  · refine (c7_negative_fatal c7exNeg .byA).1.2 ⟨⟨1, 11, -1⟩, ?_, by norm_num⟩
    norm_num [correctedRows, correctRow, groupCount, groupRows, groupSum,
      keyOf, c7exNeg]
  · refine (c7_negative_fatal c7exOk .byA).2 ?_
    norm_num [correctedRows, correctRow, groupCount, groupRows, groupSum,
      keyOf, c7exOk]

/-- C9: the rounding correction is idempotent — running `rounding_correction`
on its own successful output returns that output unchanged (the hypothesis
rules out groups whose factors sum to zero, where the source's float division
by zero would produce non-numbers instead of a table). -/
theorem c9_idempotent_rounding (t : List FRow) (key : GKey)
    (v : List FRow) (w : List String)
    (hC : ∀ r ∈ t, 1 < groupCount t key (keyOf key r) →
      groupSum t key (keyOf key r) ≠ 0)
    (hok : rounding_correction t key = .ok (v, w)) :
    rounding_correction v key = .ok (v, w) := by
  obtain ⟨hv, hw, hneg⟩ := rc_ok_parts t key v w hok
  subst hv
  subst hw
  have hfix := correctedRows_idem t key hC
  unfold rounding_correction
  rw [hfix, if_neg hneg]

/-- A two-row, one-group table for the idempotence witness. -/
def c9ex : List FRow := [⟨1, 10, 1/2⟩, ⟨1, 11, 1/4⟩]

set_option maxRecDepth 8000 in
/-- Witness for C9: a second application of the correction to the corrected
table `[2/3, 1/3]` returns it unchanged. -/
theorem c9_witness :
    rounding_correction [(⟨1, 10, 2/3⟩ : FRow), ⟨1, 11, 1/3⟩] .byA
      = .ok ([(⟨1, 10, 2/3⟩ : FRow), ⟨1, 11, 1/3⟩], []) := by
  exact c9_idempotent_rounding c9ex .byA [⟨1, 10, 2/3⟩, ⟨1, 11, 1/3⟩] []
    (by norm_num [groupCount, groupRows, groupSum, keyOf, c9ex])
    (by norm_num [rounding_correction, negCount, warnList, tooBigCount, round3,
      roundHE, correctedRows, correctRow, groupCount, groupRows,
      groupSum, keyOf, c9ex])

/-! ### Spatial correspondence (overlay factor arithmetic) -/

/-- A row of the overlay between the two zone layers: provenance ids and the
intersection area (`zone_overlay["intersection_area"] = zone_overlay.area`).
`gpd.overlay(..., how="intersection")` emits one row per intersecting feature
pair, so a tile stands for a pair (a, b). -/
structure Tile where
  a : Int
  b : Int
  area : ℚ
deriving DecidableEq

/-- `spatial_zone_correspondence` (zone_correspondence.py lines 82-131): each
factor divides the row's intersection area by the parent zone's precomputed
`{name}_area` attribute — the column created in `read_zone_shapefiles` from
the original zone geometry and carried through the overlay.  `area1` and
`area2` give those attribute values per zone id. -/
def spatial_zone_correspondence (tiles : List Tile) (area1 area2 : Int → ℚ) :
    List CRow :=
  tiles.map (fun t => ⟨t.a, t.b, t.area / area1 t.a, t.area / area2 t.b⟩)

/-- Total tile area with provenance (a, ·), the spec's `S_a(a)` (section 4.5
of the specification derives the denominator from the tiles). -/
def tileSumA (tiles : List Tile) (a : Int) : ℚ :=
  ((tiles.filter (fun t => t.a = a)).map Tile.area).sum

/-- Total tile area with provenance (a, b), the spec's `T(a, b)`. -/
def pairArea (tiles : List Tile) (a b : Int) : ℚ :=
  ((tiles.filter (fun t => t.a = a ∧ t.b = b)).map Tile.area).sum

/-- The factor the specification prescribes for a spatial translation:
`T(a, b) / S_a(a)`, with the denominator derived from the tiles and never
re-derived from the original zone geometry. -/
def spec_a_to_b (tiles : List Tile) (a b : Int) : ℚ :=
  pairArea tiles a b / tileSumA tiles a

/-- Counterexample to C3: a zone of original area 4 covered by a single tile
of area 2 (the other layer covers half of it).  The code computes
`a_to_b = 2 / 4 = 1/2`; the claim's `T(a, b) / S_a(a)` equals `2 / 2 = 1`. -/
theorem c3_counterexample :
    (spatial_zone_correspondence [⟨0, 0, 2⟩] (fun _ => 4) (fun _ => 4)).map CRow.ab
      = [1/2] ∧
    spec_a_to_b [⟨0, 0, 2⟩] 0 0 = 1 ∧ (1/2 : ℚ) ≠ 1 := by
  refine ⟨?_, ?_, by norm_num⟩
  · norm_num [spatial_zone_correspondence]
  · norm_num [spec_a_to_b, pairArea, tileSumA]

/-- C3 (amended): the code's `a_to_b` for a tile (a, b) is the intersection
area divided by the zone's original-area attribute `area1 a`; this agrees
with the spec's tile-derived formula exactly when the pair is the only one
for `a`'s row (`pairArea = t.area`) and the attribute equals the tile sum,
i.e. when zone a is fully covered by the other layer. -/
theorem c3_spatial_factor_denominator (tiles : List Tile) (area1 area2 : Int → ℚ) :
    spatial_zone_correspondence tiles area1 area2
      = tiles.map (fun t => ⟨t.a, t.b, t.area / area1 t.a, t.area / area2 t.b⟩) ∧
    (∀ t ∈ tiles, pairArea tiles t.a t.b = t.area →
      area1 t.a = tileSumA tiles t.a →
      t.area / area1 t.a = spec_a_to_b tiles t.a t.b) := by
  refine ⟨rfl, ?_⟩
  intro t _ hpair harea
  unfold spec_a_to_b
  rw [hpair, harea]

/-- Witness for the amended C3 at a fully covered zone: one tile of area 2,
original zone area also 2, so code and spec agree at value 1. -/
theorem c3_witness :
    (⟨0, 0, 2⟩ : Tile).area / 2 = spec_a_to_b [⟨0, 0, 2⟩] 0 0 := by
  exact (c3_spatial_factor_denominator [⟨0, 0, 2⟩] (fun _ => 2) (fun _ => 2)).2
    ⟨0, 0, 2⟩ (by norm_num) (by norm_num [pairArea]) (by norm_num [tileSumA])

/-! ### Shapefile loading (CRS handling) and the weighted pipeline entry -/

/-- Python-level exceptions raised by the embedded fragments. -/
inductive PyErr where
  | typeError : String → PyErr
  | keyError : String → PyErr
deriving DecidableEq

/-- The slice of a loaded GeoDataFrame relevant to CRS handling: the frame's
coordinate reference system, plus the instance attribute a plain assignment
`zone.set_crs = ...` creates (such an assignment shadows the `set_crs` method
on the instance and leaves the `crs` property untouched). -/
structure GeoFrame where
  crs : Option String
  attrSetCrs : Option String := none
deriving DecidableEq

/-- The CRS branch of `read_zone_shapefiles` (zone_correspondence.py lines
52-60).  No CRS: warn, then execute `zone.set_crs = "EPSG:27700"` — an
attribute assignment, not a method call, so `crs` stays `None`.  Different
CRS: warn, then call `zone.geometry.to_crs("EPSG:27700", inplace=True)`;
`GeoSeries.to_crs` has no `inplace` parameter, so the call raises
`TypeError`. -/
def handle_crs (zone : GeoFrame) : Except PyErr (GeoFrame × List String) :=
  if zone.crs = none then
    .ok ({ zone with attrSetCrs := some "EPSG:27700" },
      ["Zone has no CRS, setting crs to EPSG:27700."])
  else if zone.crs ≠ some "EPSG:27700" then
    .error (.typeError "to_crs got an unexpected keyword argument inplace")
  else
    .ok (zone, [])

/-- The `ReadOutput` dataclass of zone_correspondence.py (lines 21-24). -/
structure ReadOutput where
  feature : GeoFrame
  geo_type : String
deriving DecidableEq

/-- `read_zone_shapefiles` (zone branch): process the two layers in order and
return the dict `name ↦ ReadOutput(feature, "zone")` together with the
accumulated warnings; an exception in either layer propagates. -/
def read_zone_shapefiles (n1 n2 : String) (f1 f2 : GeoFrame) :
    Except PyErr (List (String × ReadOutput) × List String) :=
  match handle_crs f1, handle_crs f2 with
  | .ok (z1, w1), .ok (z2, w2) =>
      .ok ([(n1, ⟨z1, "zone"⟩), (n2, ⟨z2, "zone"⟩)], w1 ++ w2)
  | .error e, _ => .error e
  | .ok _, .error e => .error e

/-- Subscripting a `ReadOutput`: Python dataclasses define no `__getitem__`,
so `zones[name]["Zone"]` raises `TypeError` whatever the key. -/
def ReadOutput.getItem (_ : ReadOutput) (_ : String) : Except PyErr GeoFrame :=
  .error (.typeError "ReadOutput object is not subscriptable")

/-- Python dict lookup `zones[name]`. -/
def dictGet (d : List (String × ReadOutput)) (k : String) :
    Except PyErr ReadOutput :=
  match d.find? (fun p => p.1 = k) with
  | some p => .ok p.2
  | none => .error (.keyError k)

/-- The opening statements of `_create_tiles` (weighted_funcs.py lines
127-128): `zones[zone_1.name]["Zone"]` then `zones[zone_2.name]["Zone"]`.
The `overlay` oracle stands for everything after those statements (the
geopandas overlay and weighting arithmetic), which is only reached if both
subscripts succeed. -/
def create_tiles (overlay : GeoFrame → GeoFrame → GeoFrame)
    (zones : List (String × ReadOutput)) (n1 n2 : String) :
    Except PyErr GeoFrame :=
  match dictGet zones n1 with
  | .error e => .error e
  | .ok r1 =>
    match r1.getItem "Zone" with
    | .error e => .error e
    | .ok z1 =>
      match dictGet zones n2 with
      | .error e => .error e
      | .ok r2 =>
        match r2.getItem "Zone" with
        | .error e => .error e
        | .ok z2 => .ok (overlay z1 z2)

/-- The weighted translation path (`ZoneTranslation.weighted_translation`):
read the shapefiles, then build the tiles with the same zone names. -/
def weighted_path (overlay : GeoFrame → GeoFrame → GeoFrame)
    (n1 n2 : String) (f1 f2 : GeoFrame) : Except PyErr GeoFrame :=
  match read_zone_shapefiles n1 n2 f1 f2 with
  | .error e => .error e
  | .ok (zones, _) => create_tiles overlay zones n1 n2

theorem create_tiles_subscript_error (overlay : GeoFrame → GeoFrame → GeoFrame)
    (z1 z2 : GeoFrame) (n1 n2 : String) :
    create_tiles overlay [(n1, ⟨z1, "zone"⟩), (n2, ⟨z2, "zone"⟩)] n1 n2
      = .error (.typeError "ReadOutput object is not subscriptable") := by
  unfold create_tiles dictGet
  have hfind : List.find? (fun p => p.1 = n1)
      [(n1, (⟨z1, "zone"⟩ : ReadOutput)), (n2, ⟨z2, "zone"⟩)]
      = some (n1, ⟨z1, "zone"⟩) := by
    simp [List.find?]
  rw [hfind]
  rfl

theorem handle_crs_shape (z : GeoFrame) :
    (∃ g w, handle_crs z = .ok (g, w)) ∨
    (∃ m, handle_crs z = .error (.typeError m)) := by
  unfold handle_crs
  by_cases h1 : z.crs = none
  · rw [if_pos h1]
    exact Or.inl ⟨_, _, rfl⟩
  · rw [if_neg h1]
    by_cases h2 : z.crs ≠ some "EPSG:27700"
    · rw [if_pos h2]
      exact Or.inr ⟨_, rfl⟩
    · rw [if_neg h2]
      exact Or.inl ⟨_, _, rfl⟩

/-- C10: for every input the weighted translation path raises `TypeError`:
either already while loading (the `to_crs` keyword slip) or — whenever
loading succeeds — at `zones[zone_1.name]["Zone"]`, because
`read_zone_shapefiles` returns `ReadOutput` dataclass instances, which are
not subscriptable.  The result never depends on the overlay oracle, i.e. no
overlay is performed. -/
theorem c10_weighted_path_type_error (overlay : GeoFrame → GeoFrame → GeoFrame)
    (n1 n2 : String) (f1 f2 : GeoFrame) :
    (∃ m, weighted_path overlay n1 n2 f1 f2 = .error (.typeError m)) ∧
    (∀ overlay', weighted_path overlay n1 n2 f1 f2
        = weighted_path overlay' n1 n2 f1 f2) ∧
    (∀ zones w, read_zone_shapefiles n1 n2 f1 f2 = .ok (zones, w) →
      weighted_path overlay n1 n2 f1 f2
        = .error (.typeError "ReadOutput object is not subscriptable")) := by
  have hmain : ∀ ov : GeoFrame → GeoFrame → GeoFrame,
      (∃ m, weighted_path ov n1 n2 f1 f2 = .error (.typeError m)) := by
    intro ov
    unfold weighted_path read_zone_shapefiles
    rcases handle_crs_shape f1 with ⟨g1, w1, h1⟩ | ⟨m1, h1⟩
    · rcases handle_crs_shape f2 with ⟨g2, w2, h2⟩ | ⟨m2, h2⟩
      · rw [h1, h2]
        exact ⟨_, create_tiles_subscript_error ov g1 g2 n1 n2⟩
      · rw [h1, h2]
        exact ⟨m2, rfl⟩
    · rw [h1]
      exact ⟨m1, rfl⟩
  have hok : ∀ zones w, read_zone_shapefiles n1 n2 f1 f2 = .ok (zones, w) →
      weighted_path overlay n1 n2 f1 f2
        = .error (.typeError "ReadOutput object is not subscriptable") := by
    intro zones w hr
    have hz : ∃ g1 g2, zones = [(n1, ⟨g1, "zone"⟩), (n2, ⟨g2, "zone"⟩)] := by
      unfold read_zone_shapefiles at hr
      rcases handle_crs_shape f1 with ⟨g1, w1, h1⟩ | ⟨m1, h1⟩
      · rcases handle_crs_shape f2 with ⟨g2, w2, h2⟩ | ⟨m2, h2⟩
        · rw [h1, h2] at hr
          simp only [Except.ok.injEq, Prod.mk.injEq] at hr
          exact ⟨g1, g2, hr.1.symm⟩
        · rw [h1, h2] at hr
          exact Except.noConfusion hr
      · rw [h1] at hr
        exact Except.noConfusion hr
    obtain ⟨g1, g2, hzeq⟩ := hz
    unfold weighted_path
    rw [hr, hzeq]
    exact create_tiles_subscript_error overlay g1 g2 n1 n2
  refine ⟨hmain overlay, ?_, hok⟩
  intro overlay'
  unfold weighted_path
  rcases h : read_zone_shapefiles n1 n2 f1 f2 with e | ⟨zones, w⟩
  · rfl
  · have hz : ∃ g1 g2, zones = [(n1, ⟨g1, "zone"⟩), (n2, ⟨g2, "zone"⟩)] := by
      unfold read_zone_shapefiles at h
      rcases handle_crs_shape f1 with ⟨g1, w1, h1⟩ | ⟨m1, h1⟩
      · rcases handle_crs_shape f2 with ⟨g2, w2, h2⟩ | ⟨m2, h2⟩
        · rw [h1, h2] at h
          simp only [Except.ok.injEq, Prod.mk.injEq] at h
          exact ⟨g1, g2, h.1.symm⟩
        · rw [h1, h2] at h
          exact Except.noConfusion h
      · rw [h1] at h
        exact Except.noConfusion h
    obtain ⟨g1, g2, hzeq⟩ := hz
    rw [hzeq]
    exact (create_tiles_subscript_error overlay g1 g2 n1 n2).trans
      (create_tiles_subscript_error overlay' g1 g2 n1 n2).symm

/-- Witness for C10 at a concrete, successfully loading input. -/
theorem c10_witness :
    weighted_path (fun z _ => z) "zone1" "zone2"
      ⟨some "EPSG:27700", none⟩ ⟨some "EPSG:27700", none⟩
      = .error (.typeError "ReadOutput object is not subscriptable") := by
  refine (c10_weighted_path_type_error (fun z _ => z) "zone1" "zone2"
    ⟨some "EPSG:27700", none⟩ ⟨some "EPSG:27700", none⟩).2.2
    [("zone1", ⟨⟨some "EPSG:27700", none⟩, "zone"⟩),
     ("zone2", ⟨⟨some "EPSG:27700", none⟩, "zone"⟩)] ([] ++ []) ?_
  rfl

/-- C8 (code bug): for a layer with no CRS the loader warns but the intended
`set_crs` call is an attribute assignment, so the frame's CRS remains `None`
(never the declared grid); for a layer with a different CRS the `to_crs`
call raises `TypeError` instead of reprojecting. -/
theorem c8_crs_never_set :
    (∀ f : GeoFrame, f.crs = none →
      handle_crs f = .ok ({ f with attrSetCrs := some "EPSG:27700" },
        ["Zone has no CRS, setting crs to EPSG:27700."]) ∧
      ({ f with attrSetCrs := some "EPSG:27700" } : GeoFrame).crs = none) ∧
    (∀ (f : GeoFrame) (c : String), f.crs = some c → c ≠ "EPSG:27700" →
      handle_crs f
        = .error (.typeError "to_crs got an unexpected keyword argument inplace")) := by
  constructor
  · intro f h
    constructor
    · unfold handle_crs
      rw [if_pos h]
    · exact h
  · intro f c h hne
    unfold handle_crs
    rw [if_neg (by simp [h]), if_pos (by simp [h, hne])]

/-- Witness for C8 at concrete frames: a CRS-less frame keeps `crs = None`
after loading; a British-National-Grid-mismatched frame raises. -/
theorem c8_witness :
    handle_crs ⟨none, none⟩
      = .ok (⟨none, some "EPSG:27700"⟩,
        ["Zone has no CRS, setting crs to EPSG:27700."]) ∧
    handle_crs ⟨some "EPSG:4326", none⟩
      = .error (.typeError "to_crs got an unexpected keyword argument inplace") := by
  constructor
  · exact (c8_crs_never_set.1 ⟨none, none⟩ rfl).1
  · exact c8_crs_never_set.2 ⟨some "EPSG:4326", none⟩ "EPSG:4326" rfl (by decide)

/-! ### Point-zone substitution -/

/-- Abstract geometry for point handling: a true point, or a polygon known
only by its area (the only geometric quantity `_point_handling` branches
on). -/
inductive Geom where
  | point : Geom
  | poly : ℚ → Geom
deriving DecidableEq

/-- `geometry.area`: a Point has area 0.0 in geopandas. -/
def Geom.area : Geom → ℚ
  | .point => 0
  | .poly s => s

/-- A row of a zoning layer inside `_point_handling`: id column and
geometry. -/
structure PZone where
  id : Int
  geom : Geom
deriving DecidableEq

/-- Oracle for the geometry-library calls of `_point_handling`: `bufArea` is
the area of `Point.buffer(0.1)` (about pi/100 for shapely's default
resolution); `withinLower` is the `sjoin(..., predicate="within")` match to a
containing lower-zone id; `lowerGeom` the lower layer's geometry per id;
`symDiffKeep` the zone-side rows of `zone.overlay(new, "symmetric_difference")`
kept by the `~overlay[zone_id].isna()` filter. -/
structure GeoOracle where
  bufArea : ℚ
  withinLower : PZone → Option Int
  lowerGeom : Int → Geom
  symDiffKeep : List PZone → List PZone → List PZone

/-- The first statement of `_point_handling`: buffer every true-point
geometry by 0.1 so it admits an area query. -/
def bufferPoints (K : GeoOracle) (zs : List PZone) : List PZone :=
  zs.map (fun z => if z.geom = .point then ⟨z.id, .poly K.bufArea⟩ else z)

/-- `_point_handling` (weighted_funcs.py lines 58-101): buffer true points,
select rows with `zone.area < tolerance`, and if any are selected build the
replacement frame (inner merge of the within-join, so unmatched points drop
out), excise via symmetric difference and concatenate; otherwise return the
(point-buffered) layer. -/
def point_handling (K : GeoOracle) (zone : List PZone) (tol : ℚ) : List PZone :=
  let z1 := bufferPoints K zone
  let pts := z1.filter (fun z => z.geom.area < tol)
  if pts.isEmpty then z1
  else
    let replaced := pts.filterMap (fun z =>
      (K.withinLower z).map (fun l => (⟨z.id, K.lowerGeom l⟩ : PZone)))
    K.symDiffKeep z1 replaced ++ replaced

theorem poly_ne_point (q : ℚ) : Geom.poly q ≠ Geom.point :=
  fun h => Geom.noConfusion h

theorem bufferPoints_cons_poly (K : GeoOracle) (i : Int) (q : ℚ)
    (zs : List PZone) :
    bufferPoints K (⟨i, .poly q⟩ :: zs) = ⟨i, .poly q⟩ :: bufferPoints K zs := by
  unfold bufferPoints
  rw [List.map_cons, if_neg (poly_ne_point q)]

theorem bufferPoints_nil (K : GeoOracle) : bufferPoints K [] = [] := rfl

/-- A concrete oracle: buffered points get area 157/5000 (approximately
pi/100, the shapely value), every zone lies within lower zone 5, and lower
zone 5 is a polygon of area 4. -/
def c5oracle : GeoOracle :=
  ⟨157/5000, fun _ => some 5, fun _ => .poly 4, fun z _ => z⟩

/-- Counterexample to C5: a layer holding one true point (area 0, strictly
below the tolerance 1/100), for which the claim demands replacement by the
containing lower zone (a polygon of area 4) or — on its "no zone below
threshold" reading — an unchanged layer.  The code instead returns the point
buffered to a polygon of area 157/5000: the selection ran on the post-buffer
area (157/5000 is not below 1/100), so the zone was neither replaced nor left
unchanged. -/
theorem c5_counterexample :
    Geom.area .point < (1/100 : ℚ) ∧
    point_handling c5oracle [⟨1, .point⟩] (1/100) = [⟨1, .poly (157/5000)⟩] ∧
    ([(⟨1, .poly (157/5000)⟩ : PZone)] ≠ [⟨1, .point⟩]) ∧
    Geom.poly (157/5000) ≠ c5oracle.lowerGeom 5 := by
  refine ⟨by norm_num [Geom.area], ?_, by simp, by norm_num [c5oracle]⟩
  norm_num [point_handling, bufferPoints, c5oracle, Geom.area]

/-- C5 (amended): the selection of point zones uses the area measured after
true points are buffered; when no post-buffer area is strictly below the
tolerance the function returns the buffered layer — which is the unchanged
input exactly when the layer contained no true-point geometry — and each
selected zone that lies within a lower zone reappears with its original id
and the containing lower zone's geometry. -/
theorem c5_point_substitution (K : GeoOracle) (zone : List PZone) (tol : ℚ) :
    ((bufferPoints K zone).filter (fun z => z.geom.area < tol) = [] →
      point_handling K zone tol = bufferPoints K zone) ∧
    ((∀ z ∈ zone, z.geom ≠ .point) → bufferPoints K zone = zone) ∧
    (∀ z ∈ (bufferPoints K zone).filter (fun z => z.geom.area < tol),
      ∀ l, K.withinLower z = some l →
        (⟨z.id, K.lowerGeom l⟩ : PZone) ∈ point_handling K zone tol) := by
  refine ⟨?_, ?_, ?_⟩
  · intro h
    simp only [point_handling, h, List.isEmpty_nil, if_true]
  · intro h
    calc bufferPoints K zone
        = zone.map id := by
          unfold bufferPoints
          exact List.map_congr_left (fun z hz => by rw [if_neg (h z hz)]; rfl)
      _ = zone := List.map_id zone
  · intro z hz l hl
    have hne : ¬ ((bufferPoints K zone).filter
        (fun z => z.geom.area < tol)).isEmpty = true := by
      rw [List.isEmpty_iff]
      exact List.ne_nil_of_mem hz
    simp only [point_handling, if_neg hne]
    refine List.mem_append_right _ ?_
    exact List.mem_filterMap.2 ⟨z, hz, by rw [hl]; rfl⟩

/-- Witness for the amended C5: a polygon-only layer above tolerance passes
through unchanged, and a small polygon is replaced by its containing lower
zone keeping its id. -/
theorem c5_witness :
    point_handling c5oracle [⟨1, .poly 3⟩] (1/2)
      = bufferPoints c5oracle [⟨1, .poly 3⟩] ∧
    bufferPoints c5oracle [⟨1, .poly 3⟩] = [⟨1, .poly 3⟩] ∧
    (⟨2, c5oracle.lowerGeom 5⟩ : PZone)
      ∈ point_handling c5oracle [⟨2, .poly (1/4)⟩] (1/2) := by
  refine ⟨(c5_point_substitution c5oracle [⟨1, .poly 3⟩] (1/2)).1 ?_,
          (c5_point_substitution c5oracle [⟨1, .poly 3⟩] (1/2)).2.1 ?_,
          (c5_point_substitution c5oracle [⟨2, .poly (1/4)⟩] (1/2)).2.2
            ⟨2, .poly (1/4)⟩ ?_ 5 ?_⟩
  · rw [bufferPoints_cons_poly, bufferPoints_nil]
    norm_num [Geom.area]
  · intro z hz
    rw [List.mem_singleton] at hz
    subst hz
    exact poly_ne_point 3
  · rw [bufferPoints_cons_poly, bufferPoints_nil]
    norm_num [Geom.area]
  · rfl

/-! ### Weighted factor builder and conservation audit -/

/-- A weighted tile after `_create_tiles`: provenance pair and the distributed
weight (`lower.weight * tile.area / lower.area`, already multiplied in). -/
structure WTile where
  a : Int
  b : Int
  w : ℚ
deriving DecidableEq

/-- A float value of the factor columns: a number, NaN or a signed
infinity. -/
inductive PVal where
  | num : ℚ → PVal
  | nan : PVal
  | posInf : PVal
  | negInf : PVal
deriving DecidableEq

/-- Pandas float division of two column values: `0/0` is NaN, `x/0` is a
signed infinity, otherwise exact division. -/
def pdiv (x y : ℚ) : PVal :=
  if y = 0 then
    if x = 0 then .nan else if 0 < x then .posInf else .negInf
  else .num (x / y)

/-- Keep the first occurrence of each key (`groupby` key set; pandas sorts
keys, which no claim depends on). -/
def dedupList {α : Type} [DecidableEq α] : List α → List α
  | [] => []
  | x :: rest =>
    let r := dedupList rest
    if x ∈ r then r else x :: r

theorem mem_dedupList {α : Type} [DecidableEq α] {x : α} {l : List α} :
    x ∈ dedupList l ↔ x ∈ l := by
  induction l with
  | nil => simp [dedupList]
  | cons hd tl ih =>
    simp only [dedupList]
    by_cases h : hd ∈ dedupList tl
    · rw [if_pos h]
      constructor
      · intro hx
        exact List.mem_cons_of_mem hd (ih.1 hx)
      · intro hx
        rcases List.mem_cons.1 hx with rfl | hx
        · exact h
        · exact ih.2 hx
    · rw [if_neg h]
      constructor
      · intro hx
        rcases List.mem_cons.1 hx with rfl | hx
        · exact List.mem_cons_self x tl
        · exact List.mem_cons_of_mem hd (ih.1 hx)
      · intro hx
        rcases List.mem_cons.1 hx with rfl | hx
        · exact List.mem_cons_self x (dedupList tl)
        · exact List.mem_cons_of_mem hd (ih.2 hx)

/-- Sum of distributed weight over tiles with provenance (a, b)
(`tiles.groupby([zone_1_id, zone_2_id]).sum()`). -/
def overlapW (tiles : List WTile) (a b : Int) : ℚ :=
  ((tiles.filter (fun t => t.a = a ∧ t.b = b)).map WTile.w).sum

/-- Sum of distributed weight over tiles of first-layer zone a
(`return_totals(tiles, zone_1_id, data_col)`). -/
def totalW1 (tiles : List WTile) (a : Int) : ℚ :=
  ((tiles.filter (fun t => t.a = a)).map WTile.w).sum

/-- Sum of distributed weight over tiles of second-layer zone b. -/
def totalW2 (tiles : List WTile) (b : Int) : ℚ :=
  ((tiles.filter (fun t => t.b = b)).map WTile.w).sum

/-- A row of the weighted translation: ids and the two float factors. -/
structure WRow where
  a : Int
  b : Int
  ab : PVal
  ba : PVal
deriving DecidableEq

/-- `get_weighted_translation` plus the divisions of `final_weighted`
(weighted_funcs.py lines 225-277): one row per distinct (a, b) pair, with
`a_to_b = overlap / total_1(a)` and `b_to_a = overlap / total_2(b)` as float
divisions. -/
def final_weighted (tiles : List WTile) : List WRow :=
  (dedupList (tiles.map (fun t => (t.a, t.b)))).map (fun p =>
    ⟨p.1, p.2, pdiv (overlapW tiles p.1 p.2) (totalW1 tiles p.1),
               pdiv (overlapW tiles p.1 p.2) (totalW2 tiles p.2)⟩)

/-- The numeric entries of a float column (used to skip NaN when
summing). -/
def toNum : PVal → Option ℚ
  | .num q => some q
  | _ => none

/-- Pandas `groupby(...).sum()` over a float column: NaN entries are skipped
(a group of only NaN sums to 0.0) and an infinity dominates. -/
def psum (vs : List PVal) : PVal :=
  if PVal.posInf ∈ vs ∧ PVal.negInf ∈ vs then .nan
  else if PVal.posInf ∈ vs then .posInf
  else if PVal.negInf ∈ vs then .negInf
  else .num ((vs.filterMap toNum).sum)

/-- Python float addition on the embedded values (NaN propagates). -/
def pyAdd : PVal → PVal → PVal
  | .nan, _ => .nan
  | _, .nan => .nan
  | .posInf, .negInf => .nan
  | .negInf, .posInf => .nan
  | .posInf, _ => .posInf
  | _, .posInf => .posInf
  | .negInf, _ => .negInf
  | _, .negInf => .negInf
  | .num p, .num q => .num (p + q)

/-- Python's builtin `sum` over the per-zone totals. -/
def pyTotal (vs : List PVal) : PVal := vs.foldl pyAdd (.num 0)

/-- Float `<` against a rational bound: NaN compares false. -/
def pvalLtQ (v : PVal) (c : ℚ) : Bool :=
  match v with
  | .num q => decide (q < c)
  | .negInf => true
  | _ => false

/-- Distinct first-layer ids of the translation (`pd.unique(col_0)`). -/
def ids1 (rows : List WRow) : List Int := dedupList (rows.map WRow.a)

/-- Distinct second-layer ids. -/
def ids2 (rows : List WRow) : List Int := dedupList (rows.map WRow.b)

/-- `summary_table_1`: per-zone sum of `a_to_b` (groupby sum, NaN
skipped). -/
def rowSum1 (rows : List WRow) (a : Int) : PVal :=
  psum ((rows.filter (fun r => r.a = a)).map WRow.ab)

/-- `summary_table_2`: per-zone sum of `b_to_a`. -/
def rowSum2 (rows : List WRow) (b : Int) : PVal :=
  psum ((rows.filter (fun r => r.b = b)).map WRow.ba)

/-- `under_1_zones_1`: ids whose summary value is below 0.999999. -/
def under1A (rows : List WRow) : List Int :=
  (ids1 rows).filter (fun a => pvalLtQ (rowSum1 rows a) (999999/1000000))

/-- `under_1_zones_2`. -/
def under1B (rows : List WRow) : List Int :=
  (ids2 rows).filter (fun b => pvalLtQ (rowSum2 rows b) (999999/1000000))

/-- The structured reports of the conservation audit.  The constructors other
than `zeroWeight` embed the warnings `_post_processing` can emit.
`zeroWeight` is modelled from the spec: sections 4.5 and 7 require a
dedicated "zero-weight" report for a zone with zero total weight; the source
has no corresponding emission site. -/
inductive AuditReport where
  | missingZones1 : Nat → AuditReport
  | missingZones2 : Nat → AuditReport
  | sumsNotOne1 : List Int → AuditReport
  | sumsNotOne2 : List Int → AuditReport
  | zeroWeight : Int → AuditReport
deriving DecidableEq

/-- `ZoneTranslation._post_processing` (zone_translation.py lines 239-309):
warn about missing zones (counts come from the geometry layers and are inputs
here), then for each direction compare `len(pd.unique(ids))` with
`sum(summary_table)` and warn with the under-1 list on mismatch.  With
`filter_slivers = False` and `rounding = False` the audit receives the
`final_weighted` table unchanged. -/
def post_processing_audit (rows : List WRow) (missing1 missing2 : Nat) :
    List AuditReport :=
  (if 0 < missing1 then [.missingZones1 missing1] else []) ++
  (if 0 < missing2 then [.missingZones2 missing2] else []) ++
  (if pyTotal ((ids1 rows).map (rowSum1 rows))
      = .num ((ids1 rows).length : ℚ) then []
    else [.sumsNotOne1 (under1A rows)]) ++
  (if pyTotal ((ids2 rows).map (rowSum2 rows))
      = .num ((ids2 rows).length : ℚ) then []
    else [.sumsNotOne2 (under1B rows)])

@[simp] theorem pval_posInf_ne_nan : (PVal.posInf = PVal.nan) = False :=
  eq_false (fun h => PVal.noConfusion h)

@[simp] theorem pval_negInf_ne_nan : (PVal.negInf = PVal.nan) = False :=
  eq_false (fun h => PVal.noConfusion h)

@[simp] theorem pval_posInf_ne_num (q : ℚ) : (PVal.posInf = PVal.num q) = False :=
  eq_false (fun h => PVal.noConfusion h)

@[simp] theorem pval_negInf_ne_num (q : ℚ) : (PVal.negInf = PVal.num q) = False :=
  eq_false (fun h => PVal.noConfusion h)

@[simp] theorem pval_num_ne_nan (q : ℚ) : (PVal.num q = PVal.nan) = False :=
  eq_false (fun h => PVal.noConfusion h)

@[simp] theorem pval_nan_ne_num (q : ℚ) : (PVal.nan = PVal.num q) = False :=
  eq_false (fun h => PVal.noConfusion h)

@[simp] theorem zeroWeight_ne_sums1 (a : Int) (l : List Int) :
    (AuditReport.zeroWeight a = AuditReport.sumsNotOne1 l) = False :=
  eq_false (fun h => AuditReport.noConfusion h)

theorem sum_nonneg_all_zero (l : List ℚ) (h : ∀ x ∈ l, 0 ≤ x)
    (hs : l.sum = 0) : ∀ x ∈ l, x = 0 := by
  induction l with
  | nil => simp
  | cons hd tl ih =>
    have hhd : 0 ≤ hd := h hd (List.mem_cons_self hd tl)
    have htl : 0 ≤ tl.sum :=
      List.sum_nonneg (fun x hx => h x (List.mem_cons_of_mem hd hx))
    rw [List.sum_cons] at hs
    have h1 : hd = 0 := by linarith
    have h2 : tl.sum = 0 := by linarith
    intro x hx
    rcases List.mem_cons.1 hx with rfl | hx
    · exact h1
    · exact ih (fun y hy => h y (List.mem_cons_of_mem hd hy)) h2 x hx

theorem overlapW_eq_zero (tiles : List WTile) (a b : Int)
    (hw : ∀ t ∈ tiles, 0 ≤ t.w) (hzero : totalW1 tiles a = 0) :
    overlapW tiles a b = 0 := by
  have hall : ∀ x ∈ (tiles.filter (fun t => t.a = a)).map WTile.w, x = 0 := by
    apply sum_nonneg_all_zero
    · intro x hx
      obtain ⟨t, ht, rfl⟩ := List.mem_map.1 hx
      exact hw t (List.mem_filter.1 ht).1
    · exact hzero
  apply List.sum_eq_zero
  intro x hx
  obtain ⟨t, ht, rfl⟩ := List.mem_map.1 hx
  have htf := List.mem_filter.1 ht
  have hta : t.a = a := by
    have := htf.2
    simp only [decide_eq_true_eq] at this
    exact this.1
  apply hall
  exact List.mem_map_of_mem _ (List.mem_filter.2 ⟨htf.1, by simpa using hta⟩)

/-- C6 (amended): for a zone a with tiles but zero total distributed weight,
`final_weighted` emits NaN for every `a_to_b` factor of a, and the
conservation audit surfaces a through the per-zone sums check (its
NaN-skipping group sum is 0, below 0.999999) — but never under a dedicated
zero-weight report, which the source cannot emit. -/
theorem c6_zero_weight_nan (tiles : List WTile) (a : Int)
    (hw : ∀ t ∈ tiles, 0 ≤ t.w)
    (hmem : ∃ t ∈ tiles, t.a = a)
    (hzero : totalW1 tiles a = 0) :
    (∀ r ∈ final_weighted tiles, r.a = a → r.ab = .nan) ∧
    a ∈ under1A (final_weighted tiles) ∧
    (∀ m1 m2 : Nat,
      AuditReport.zeroWeight a ∉ post_processing_audit (final_weighted tiles) m1 m2) := by
  have hnan : ∀ r ∈ final_weighted tiles, r.a = a → r.ab = .nan := by
    intro r hr hra
    obtain ⟨p, _, rfl⟩ := List.mem_map.1 hr
    have hp1 : p.1 = a := hra
    show pdiv (overlapW tiles p.1 p.2) (totalW1 tiles p.1) = .nan
    rw [hp1, overlapW_eq_zero tiles a p.2 hw hzero, hzero]
    unfold pdiv
    rw [if_pos rfl, if_pos rfl]
  have haids : a ∈ ids1 (final_weighted tiles) := by
    obtain ⟨t, ht, hta⟩ := hmem
    have hpair : (t.a, t.b) ∈ tiles.map (fun t => (t.a, t.b)) :=
      List.mem_map_of_mem _ ht
    have hrow : (⟨t.a, t.b,
        pdiv (overlapW tiles t.a t.b) (totalW1 tiles t.a),
        pdiv (overlapW tiles t.a t.b) (totalW2 tiles t.b)⟩ : WRow)
        ∈ final_weighted tiles := by
      unfold final_weighted
      exact List.mem_map_of_mem _ (mem_dedupList.2 hpair)
    unfold ids1
    apply mem_dedupList.2
    rw [← hta]
    exact List.mem_map_of_mem WRow.a hrow
  have hsum0 : rowSum1 (final_weighted tiles) a = .num 0 := by
    have hallnan : ∀ v ∈ ((final_weighted tiles).filter
        (fun r => r.a = a)).map WRow.ab, v = PVal.nan := by
      intro v hv
      obtain ⟨r, hr, rfl⟩ := List.mem_map.1 hv
      have hrf := List.mem_filter.1 hr
      exact hnan r hrf.1 (by simpa using hrf.2)
    unfold rowSum1 psum
    have hnp : PVal.posInf ∉ ((final_weighted tiles).filter
        (fun r => r.a = a)).map WRow.ab := by
      intro hmem'
      exact PVal.noConfusion (hallnan _ hmem')
    have hnn : PVal.negInf ∉ ((final_weighted tiles).filter
        (fun r => r.a = a)).map WRow.ab := by
      intro hmem'
      exact PVal.noConfusion (hallnan _ hmem')
    rw [if_neg (by intro h; exact hnp h.1), if_neg hnp, if_neg hnn]
    have hfm : (((final_weighted tiles).filter (fun r => r.a = a)).map
        WRow.ab).filterMap toNum = [] := by
      rw [List.filterMap_eq_nil_iff]
      intro v hv
      rw [hallnan v hv]
      rfl
    rw [hfm]
    rfl
  have hunder : a ∈ under1A (final_weighted tiles) := by
    unfold under1A
    apply List.mem_filter.2
    refine ⟨haids, ?_⟩
    rw [hsum0]
    unfold pvalLtQ
    simp only [decide_eq_true_eq]
    norm_num
  refine ⟨hnan, hunder, ?_⟩
  intro m1 m2
  unfold post_processing_audit
  simp only [List.mem_append, List.mem_singleton]
  intro hcon
  rcases hcon with ((h | h) | h) | h <;> split_ifs at h <;>
    simp only [List.mem_singleton, List.not_mem_nil] at h <;>
    exact AuditReport.noConfusion h

/-- A weighted tile table with a zero-weight first-layer zone 1 (its only
tile carries weight 0) and a normal zone 2. -/
def c6tiles : List WTile := [⟨1, 10, 0⟩, ⟨2, 10, 5⟩]

/-- Counterexample to C6: at `c6tiles`, zone 1 has zero total weight; the
factor builder emits NaN for it and the audit's report list is exactly the
per-direction sums warning — it contains no zero-weight report for zone 1,
contradicting the claim that the zone is reported as "zero-weight". -/
theorem c6_counterexample :
    totalW1 c6tiles 1 = 0 ∧
    final_weighted c6tiles
      = [⟨1, 10, .nan, .num 0⟩, ⟨2, 10, .num 1, .num 1⟩] ∧
    post_processing_audit (final_weighted c6tiles) 0 0
      = [.sumsNotOne1 [1]] ∧
    AuditReport.zeroWeight 1 ∉ post_processing_audit (final_weighted c6tiles) 0 0 := by
  have hrows : final_weighted c6tiles
      = [⟨1, 10, .nan, .num 0⟩, ⟨2, 10, .num 1, .num 1⟩] := by
    norm_num [final_weighted, dedupList, overlapW, totalW1, totalW2, pdiv,
      c6tiles]
  have haudit : post_processing_audit (final_weighted c6tiles) 0 0
      = [.sumsNotOne1 [1]] := by
    rw [hrows]
    norm_num [post_processing_audit, ids1, ids2, rowSum1, rowSum2, under1A,
      under1B, psum, toNum, pyTotal, pyAdd, pvalLtQ, dedupList,
      List.filterMap_cons]
  refine ⟨by norm_num [totalW1, c6tiles], hrows, haudit, ?_⟩
  rw [haudit]
  simp

/-- Witness for the amended C6 at `c6tiles`: zone 1 lands in the under-1 list
of the audit and no zero-weight report exists. -/
theorem c6_witness :
    (1 : Int) ∈ under1A (final_weighted c6tiles) ∧
    AuditReport.zeroWeight 1 ∉ post_processing_audit (final_weighted c6tiles) 0 0 := by
  have h := c6_zero_weight_nan c6tiles 1 (by norm_num [c6tiles])
    ⟨⟨1, 10, 0⟩, by norm_num [c6tiles], rfl⟩ (by norm_num [totalW1, c6tiles])
  exact ⟨h.2.1, h.2.2 0 0⟩
